import Mathlib

/-!
Verification of the PSD aggregation and normalization logic of
gptransits (src/gptransits/plot.py), shallowly embedded over exact
rationals.  Power curves are lists of rationals aligned with a shared
frequency grid; Python dict lookups that can raise KeyError are
embedded as Option-valued lookup functions, and the plotting loop of
plot_psd becomes an Option-valued fold over the component list.
-/

/-- Element-wise addition of two equally-long power curves
(numpy `a + b` on aligned arrays). -/
def addVec (a b : List ℚ) : List ℚ := List.zipWith (· + ·) a b

/-- Element-wise subtraction of two equally-long power curves. -/
def subVec (a b : List ℚ) : List ℚ := List.zipWith (· - ·) a b

/-- The line-style dict of plot_psd: {"Granulation": "--",
"OscillationBump": "-.", "WhiteNoise": ":"}; lookup of a missing key is
a KeyError, embedded as none. -/
def ls_dict (name : String) : Option String :=
  if name = "Granulation" then some "--"
  else if name = "OscillationBump" then some "-."
  else if name = "WhiteNoise" then some ":"
  else none

/-- The opacity dict of plot_psd: {"Granulation": 0.8,
"OscillationBump": 0.8, "WhiteNoise": 0.6}. -/
def alpha_dict (name : String) : Option ℚ :=
  if name = "Granulation" then some (4/5)
  else if name = "OscillationBump" then some (4/5)
  else if name = "WhiteNoise" then some (3/5)
  else none

/-- The legend-label dict of plot_psd: {"Granulation": "Granulation",
"OscillationBump": "Gaussian envelope", "WhiteNoise": "White noise"}. -/
def label_dict (name : String) : Option String :=
  if name = "Granulation" then some "Granulation"
  else if name = "OscillationBump" then some "Gaussian envelope"
  else if name = "WhiteNoise" then some "White noise"
  else none

/-- The state mutated by the component loop of plot_psd: the two
accumulator curves, the list of legend labels recorded so far, and the
sequence of curves drawn so far (name, curve as drawn, whether the
loglog call carried a label). -/
structure PsdState where
  full_power : List ℚ
  nobump_power : List ℚ
  unique_labels : List String
  draws : List (String × List ℚ × Bool)
deriving DecidableEq

/-- The in-place `power += 0.0` applied when name == "WhiteNoise"
(the TODO white-noise hook of plot_psd). -/
def whiteNoiseAdjust (name : String) (power : List ℚ) : List ℚ :=
  if name = "WhiteNoise" then power.map (fun x => x + 0) else power

/-- One iteration of the `for name, power in power_list` loop of
plot_psd: the white-noise hook, the two accumulations, then the
label-deduplicated loglog draw.  A component name outside the three
dicts raises KeyError at the label/style lookups, embedded as none. -/
def plot_psd_step (s : PsdState) (c : String × List ℚ) : Option PsdState :=
  let power := whiteNoiseAdjust c.1 c.2
  let nobump := if c.1 ≠ "OscillationBump" then addVec s.nobump_power power else s.nobump_power
  let full := addVec s.full_power power
  match label_dict c.1, ls_dict c.1, alpha_dict c.1 with
  | some lab, some _, some _ =>
    if lab ∈ s.unique_labels then
      some ⟨full, nobump, s.unique_labels, s.draws ++ [(c.1, power, false)]⟩
    else
      some ⟨full, nobump, s.unique_labels ++ [lab], s.draws ++ [(c.1, power, true)]⟩
  | _, _, _ => none

/-- The whole component loop of plot_psd, run from a given state. -/
def runAggregate : PsdState → List (String × List ℚ) → Option PsdState
  | s, [] => some s
  | s, c :: rest =>
    match plot_psd_step s c with
    | none => none
    | some s' => runAggregate s' rest

/-- The state before the loop: `nobump_power = np.zeros(freq.size)`,
`full_power = np.zeros(freq.size)`, `unique_labels = []`, nothing drawn. -/
def initState (n : ℕ) : PsdState :=
  ⟨List.replicate n 0, List.replicate n 0, [], []⟩

/-- The aggregation part of plot_psd on a frequency grid of size n. -/
def plot_psd_aggregate (n : ℕ) (comps : List (String × List ℚ)) : Option PsdState :=
  runAggregate (initState n) comps

/-- The element-wise sum of all component power curves, starting from
an all-zero curve of length n. -/
def sumPowers (n : ℕ) (comps : List (String × List ℚ)) : List ℚ :=
  comps.foldl (fun acc c => addVec acc c.2) (List.replicate n 0)

/-- Appending an element to a seen-list only when it is new
(the `if x not in seen: seen.append(x)` idiom). -/
def insertNew (seen : List String) (x : String) : List String :=
  if x ∈ seen then seen else seen ++ [x]

/-- The display label a name maps to, with a default for names outside
the dict (only used where the lookup is known to succeed). -/
def labelOf (name : String) : String := (label_dict name).getD ""

/-- The per-draw bookkeeping of the loop, expressed directly as a
recursion over the component list: each component is drawn with its
(unchanged) curve, labeled exactly when its display label has not been
seen before. -/
def drawsSpec (seen : List String) : List (String × List ℚ) → List (String × List ℚ × Bool)
  | [] => []
  | c :: rest =>
    (c.1, c.2, decide (labelOf c.1 ∉ seen)) :: drawsSpec (insertNew seen (labelOf c.1)) rest

/-- The `power += 0.0` white-noise hook does not change the curve. -/
theorem whiteNoiseAdjust_eq (name : String) (power : List ℚ) :
    whiteNoiseAdjust name power = power := by
  unfold whiteNoiseAdjust
  split <;> simp

/-- A successful dict lookup determines labelOf. -/
theorem labelOf_eq (name lab : String) (h : label_dict name = some lab) :
    labelOf name = lab := by
  simp [labelOf, h]

/-- Characterization of one successful loop iteration: the label lookup
succeeded and the new state is the old one with both accumulators
updated (nobump only off the bump component), the label recorded if
new, and the draw appended with the labeled flag set exactly when the
label was new. -/
theorem plot_psd_step_some (s s' : PsdState) (c : String × List ℚ)
    (h : plot_psd_step s c = some s') :
    ∃ lab, label_dict c.1 = some lab ∧
      s' = ⟨addVec s.full_power c.2,
            if c.1 ≠ "OscillationBump" then addVec s.nobump_power c.2 else s.nobump_power,
            insertNew s.unique_labels lab,
            s.draws ++ [(c.1, c.2, decide (lab ∉ s.unique_labels))]⟩ := by
  simp only [plot_psd_step, whiteNoiseAdjust_eq] at h
  split at h
  case _ lab ls al hlab hls hal =>
    refine ⟨lab, hlab, ?_⟩
    by_cases hmem : lab ∈ s.unique_labels <;>
      simp [hmem, insertNew] at h ⊢ <;> exact h.symm
  case _ => exact absurd h (by simp)

/-- A failed label lookup makes the loop iteration raise (KeyError). -/
theorem plot_psd_step_none (s : PsdState) (c : String × List ℚ)
    (h : label_dict c.1 = none) : plot_psd_step s c = none := by
  simp [plot_psd_step, h]

/-- Loop invariant of the component loop of plot_psd, relative to an
arbitrary start state: on success, full_power is the running
element-wise sum of all curves, nobump_power the running sum of the
curves not named "OscillationBump", unique_labels the fold of
first-seen label insertion, draws the drawsSpec bookkeeping, and every
processed name has a label. -/
theorem runAggregate_spec (comps : List (String × List ℚ)) :
    ∀ s₀ s, runAggregate s₀ comps = some s →
      s.full_power = comps.foldl (fun acc c => addVec acc c.2) s₀.full_power ∧
      s.nobump_power = (comps.filter fun c => decide (c.1 ≠ "OscillationBump")).foldl
          (fun acc c => addVec acc c.2) s₀.nobump_power ∧
      s.unique_labels = (comps.map fun c => labelOf c.1).foldl insertNew s₀.unique_labels ∧
      s.draws = s₀.draws ++ drawsSpec s₀.unique_labels comps ∧
      ∀ c ∈ comps, (label_dict c.1).isSome := by
  induction comps with
  | nil =>
    intro s₀ s h
    simp only [runAggregate, Option.some.injEq] at h
    simp [← h, drawsSpec]
  | cons c rest ih =>
    intro s₀ s h
    cases hstep : plot_psd_step s₀ c with
    | none => simp [runAggregate, hstep] at h
    | some s₁ =>
      simp only [runAggregate, hstep] at h
      obtain ⟨lab, hlab, rfl⟩ := plot_psd_step_some _ _ _ hstep
      obtain ⟨hfull, hnob, hlabels, hdraws, hdom⟩ := ih _ _ h
      refine ⟨?_, ?_, ?_, ?_, ?_⟩
      · simpa using hfull
      · by_cases hc : c.1 = "OscillationBump" <;> simp [hc] at hnob ⊢ <;> exact hnob
      · simpa [labelOf_eq _ _ hlab] using hlabels
      · simp only [hdraws, drawsSpec, labelOf_eq _ _ hlab]
        simp
      · intro d hd
        rcases List.mem_cons.mp hd with hd | hd
        · simp [hd, hlab]
        · exact hdom d hd

/-- Element-wise sums have the length of the shorter operand. -/
theorem addVec_length (a b : List ℚ) : (addVec a b).length = min a.length b.length := by
  simp [addVec]

/-- Element-wise differences have the length of the shorter operand. -/
theorem subVec_length (a b : List ℚ) : (subVec a b).length = min a.length b.length := by
  simp [subVec]

/-- Accumulating curves of length n into a length-n accumulator keeps
length n. -/
theorem foldl_addVec_length (n : ℕ) (l : List (String × List ℚ)) :
    ∀ init : List ℚ, init.length = n → (∀ c ∈ l, c.2.length = n) →
      (l.foldl (fun acc c => addVec acc c.2) init).length = n := by
  induction l with
  | nil => intro init hinit _; simpa using hinit
  | cons c rest ih =>
    intro init hinit hl
    simp only [List.foldl_cons]
    refine ih _ ?_ fun d hd => hl d (List.mem_cons_of_mem _ hd)
    rw [addVec_length, hinit, hl c (List.mem_cons_self c rest), min_self]

/-- Reading any position of an all-zero curve gives zero. -/
theorem getD_replicate_zero : ∀ n i : ℕ, (List.replicate n (0 : ℚ)).getD i 0 = 0
  | 0, _ => by simp
  | _ + 1, 0 => by simp [List.replicate_succ]
  | n + 1, i + 1 => by
    simp only [List.replicate_succ, List.getD_cons_succ]
    exact getD_replicate_zero n i

/-- On equally-long curves, element-wise addition reads pointwise. -/
theorem getD_addVec : ∀ a b : List ℚ, a.length = b.length → ∀ i : ℕ,
    (addVec a b).getD i 0 = a.getD i 0 + b.getD i 0
  | [], [], _, i => by simp [addVec]
  | [], _ :: _, h, _ => by simp at h
  | _ :: _, [], h, _ => by simp at h
  | x :: xs, y :: ys, h, 0 => by simp [addVec]
  | x :: xs, y :: ys, h, i + 1 => by
    simp only [addVec, List.zipWith_cons_cons, List.getD_cons_succ]
    exact getD_addVec xs ys (by simpa using h) i

/-- On equally-long curves, element-wise subtraction reads pointwise. -/
theorem getD_subVec : ∀ a b : List ℚ, a.length = b.length → ∀ i : ℕ,
    (subVec a b).getD i 0 = a.getD i 0 - b.getD i 0
  | [], [], _, i => by simp [subVec]
  | [], _ :: _, h, _ => by simp at h
  | _ :: _, [], h, _ => by simp at h
  | x :: xs, y :: ys, h, 0 => by simp [subVec]
  | x :: xs, y :: ys, h, i + 1 => by
    simp only [subVec, List.zipWith_cons_cons, List.getD_cons_succ]
    exact getD_subVec xs ys (by simpa using h) i

/-- Accumulated element-wise sums read pointwise as rational sums. -/
theorem getD_foldl_addVec (n : ℕ) (l : List (String × List ℚ)) :
    ∀ init : List ℚ, init.length = n → (∀ c ∈ l, c.2.length = n) → ∀ i : ℕ,
      (l.foldl (fun acc c => addVec acc c.2) init).getD i 0 =
        init.getD i 0 + (l.map fun c => c.2.getD i 0).sum := by
  induction l with
  | nil => intro init _ _ i; simp
  | cons c rest ih =>
    intro init hinit hl i
    have hc : c.2.length = n := hl c (List.mem_cons_self c rest)
    have hlen : (addVec init c.2).length = n := by
      rw [addVec_length, hinit, hc, min_self]
    simp only [List.foldl_cons, List.map_cons, List.sum_cons]
    rw [ih _ hlen fun d hd => hl d (List.mem_cons_of_mem _ hd),
      getD_addVec init c.2 (hinit.trans hc.symm)]
    ring

/-- Splitting a rational sum over a list along a Boolean predicate. -/
theorem sum_map_filter_split {α : Type} (p : α → Bool) (f : α → ℚ) (l : List α) :
    (l.map f).sum =
      ((l.filter p).map f).sum + ((l.filter fun x => !(p x)).map f).sum := by
  induction l with
  | nil => simp
  | cons x xs ih => cases hp : p x <;> simp [hp, ih] <;> ring

/-- Membership after a conditional append. -/
theorem mem_insertNew (seen : List String) (x y : String) :
    y ∈ insertNew seen x ↔ y ∈ seen ∨ y = x := by
  by_cases h : x ∈ seen <;> simp [insertNew, h]
  exact fun hyx => hyx ▸ h

/-- Conditional append preserves nodup. -/
theorem nodup_insertNew (seen : List String) (x : String) (h : seen.Nodup) :
    (insertNew seen x).Nodup := by
  by_cases hx : x ∈ seen <;> simp [insertNew, hx, List.nodup_append, h]

/-- The seen-list stays nodup along the loop. -/
theorem nodup_foldl_insertNew (l : List String) :
    ∀ seen : List String, seen.Nodup → (l.foldl insertNew seen).Nodup := by
  induction l with
  | nil => intro seen h; simpa using h
  | cons x xs ih => intro seen h; exact ih _ (nodup_insertNew seen x h)

/-- Membership in the final seen-list of the loop. -/
theorem mem_foldl_insertNew (l : List String) :
    ∀ seen x, x ∈ l.foldl insertNew seen ↔ x ∈ seen ∨ x ∈ l := by
  induction l with
  | nil => intro seen x; simp
  | cons y ys ih =>
    intro seen x
    simp only [List.foldl_cons, ih, mem_insertNew, List.mem_cons]
    tauto

/-- Names with a label are exactly the three known component names. -/
theorem label_dict_domain (a : String) (h : (label_dict a).isSome) :
    a = "Granulation" ∨ a = "OscillationBump" ∨ a = "WhiteNoise" := by
  by_contra hc
  push_neg at hc
  obtain ⟨h1, h2, h3⟩ := hc
  simp [label_dict, h1, h2, h3] at h

/-- On names with a label, the display label determines the name. -/
theorem labelOf_inj (a b : String) (ha : (label_dict a).isSome) (hb : (label_dict b).isSome)
    (h : labelOf a = labelOf b) : a = b := by
  rcases label_dict_domain a ha with rfl | rfl | rfl <;>
    rcases label_dict_domain b hb with rfl | rfl | rfl <;>
      first
        | rfl
        | exact absurd h (by decide)

/-- For labeled names, membership of the label in the mapped seen-list
coincides with membership of the name. -/
theorem labelOf_mem_map (seen : List String) (x : String)
    (hx : (label_dict x).isSome) (hdom : ∀ a ∈ seen, (label_dict a).isSome) :
    labelOf x ∈ seen.map labelOf ↔ x ∈ seen := by
  constructor
  · intro hm
    obtain ⟨b, hb, hlb⟩ := List.mem_map.mp hm
    exact labelOf_inj b x (hdom b hb) hx hlb ▸ hb
  · intro hm
    exact List.mem_map.mpr ⟨x, hm, rfl⟩

/-- Conditional append commutes with mapping labelOf whenever label
membership mirrors name membership. -/
theorem insertNew_map (seen : List String) (x : String)
    (h : labelOf x ∈ seen.map labelOf ↔ x ∈ seen) :
    insertNew (seen.map labelOf) (labelOf x) = (insertNew seen x).map labelOf := by
  by_cases hx : x ∈ seen
  · simp [insertNew, hx, h.mpr hx]
  · have hnx : labelOf x ∉ seen.map labelOf := fun hm => hx (h.mp hm)
    simp [insertNew, hx, hnx]

/-- The label-seen fold of the loop is the name-seen fold, mapped
through labelOf, when every involved name has a label. -/
theorem foldl_insertNew_map (l : List String) :
    ∀ seen : List String,
      (∀ a, (a ∈ l ∨ a ∈ seen) → (label_dict a).isSome) →
      (l.map labelOf).foldl insertNew (seen.map labelOf) =
        (l.foldl insertNew seen).map labelOf := by
  induction l with
  | nil => intro seen _; simp
  | cons x xs ih =>
    intro seen hdom
    have hx : (label_dict x).isSome := hdom x (Or.inl (List.mem_cons_self x xs))
    have hiff : labelOf x ∈ seen.map labelOf ↔ x ∈ seen :=
      labelOf_mem_map seen x hx fun a ha => hdom a (Or.inr ha)
    simp only [List.map_cons, List.foldl_cons, insertNew_map seen x hiff]
    refine ih (insertNew seen x) ?_
    intro a ha
    rcases ha with ha | ha
    · exact hdom a (Or.inl (List.mem_cons_of_mem _ ha))
    · rcases (mem_insertNew seen x a).mp ha with ha | rfl
      · exact hdom a (Or.inr ha)
      · exact hx

/-- First-occurrence flags over the raw component names: flag i is true
exactly when name i did not occur among the earlier names. -/
def firstOccFlags (seen : List String) : List String → List Bool
  | [] => []
  | nm :: rest => decide (nm ∉ seen) :: firstOccFlags (insertNew seen nm) rest

/-- The labeled flags recorded by the loop are the first-occurrence
flags of the raw names, when every involved name has a label. -/
theorem drawsSpec_flags (comps : List (String × List ℚ)) :
    ∀ seen : List String,
      (∀ a, (a ∈ comps.map (fun c => c.1) ∨ a ∈ seen) → (label_dict a).isSome) →
      (drawsSpec (seen.map labelOf) comps).map (fun d => d.2.2) =
        firstOccFlags seen (comps.map fun c => c.1) := by
  induction comps with
  | nil => intro seen _; simp [drawsSpec, firstOccFlags]
  | cons c rest ih =>
    intro seen hdom
    have hx : (label_dict c.1).isSome := hdom c.1 (Or.inl (by simp))
    have hiff : labelOf c.1 ∈ seen.map labelOf ↔ c.1 ∈ seen :=
      labelOf_mem_map seen c.1 hx fun a ha => hdom a (Or.inr ha)
    simp only [drawsSpec, firstOccFlags, List.map_cons]
    congr 1
    · simp [decide_eq_decide, hiff]
    · rw [insertNew_map seen c.1 hiff]
      refine ih (insertNew seen c.1) ?_
      intro a ha
      rcases ha with ha | ha
      · exact hdom a (Or.inl (List.mem_cons_of_mem _ ha))
      · rcases (mem_insertNew seen c.1 a).mp ha with ha | rfl
        · exact hdom a (Or.inr ha)
        · exact hx

/-- The distinct elements of a list in order of first occurrence. -/
def dedupFirst (l : List String) : List String := l.foldl insertNew []

/-- The loop iteration of plot_psd with the white-noise hook
(`power += 0.0`) removed; everything else is unchanged. -/
def plot_psd_step_noadj (s : PsdState) (c : String × List ℚ) : Option PsdState :=
  let power := c.2
  let nobump := if c.1 ≠ "OscillationBump" then addVec s.nobump_power power else s.nobump_power
  let full := addVec s.full_power power
  match label_dict c.1, ls_dict c.1, alpha_dict c.1 with
  | some lab, some _, some _ =>
    if lab ∈ s.unique_labels then
      some ⟨full, nobump, s.unique_labels, s.draws ++ [(c.1, power, false)]⟩
    else
      some ⟨full, nobump, s.unique_labels ++ [lab], s.draws ++ [(c.1, power, true)]⟩
  | _, _, _ => none

/-- The component loop of plot_psd with the white-noise hook removed. -/
def runAggregateNoadj : PsdState → List (String × List ℚ) → Option PsdState
  | s, [] => some s
  | s, c :: rest =>
    match plot_psd_step_noadj s c with
    | none => none
    | some s' => runAggregateNoadj s' rest

/-- The aggregation part of plot_psd with the white-noise hook removed. -/
def plot_psd_aggregate_noadj (n : ℕ) (comps : List (String × List ℚ)) : Option PsdState :=
  runAggregateNoadj (initState n) comps

/-- The two loop iterations agree on every state and component. -/
theorem plot_psd_step_eq_noadj (s : PsdState) (c : String × List ℚ) :
    plot_psd_step s c = plot_psd_step_noadj s c := by
  simp only [plot_psd_step, plot_psd_step_noadj, whiteNoiseAdjust_eq]

/-- The model inputs consumed by plot_gp: time samples, flux samples,
and the per-sample error attribute, which may be absent. -/
structure GPModel where
  time : List ℚ
  flux : List ℚ
  error : Option (List ℚ)

/-- The `try: err = model.error / except AttributeError: err = None` of
plot_gp: the error bars passed to the full-range errorbar call. -/
def plot_gp_err (m : GPModel) : Option (List ℚ) :=
  match m.error with
  | some e => some e
  | none => none

/-- The error bars passed to the zoomed errorbar call of plot_gp:
`if err is not None: err = err[:150]`. -/
def plot_gp_zoom_err (m : GPModel) : Option (List ℚ) :=
  match plot_gp_err m with
  | none => none
  | some e => some (e.take 150)

/-- The empirical-grid resolution of plot_psd: `freq2[1] - freq2[0]`. -/
def resolutionOf (freq : List ℚ) : ℚ := freq.getD 1 0 - freq.getD 0 0

/-- numpy var of the flux: the mean squared deviation from the mean. -/
def npVar (xs : List ℚ) : ℚ :=
  (xs.map fun x => (x - xs.sum / xs.length) ^ 2).sum / xs.length

/-- The Parseval branch of plot_psd:
`power = (power * variance / sum(power)) / resolution` element-wise,
with variance = np.var(flux) and resolution from the empirical grid. -/
def parsevalNorm (power flux freq : List ℚ) : List ℚ :=
  power.map fun p => p * npVar flux / power.sum / resolutionOf freq

/-- The celerite branch of plot_psd: `power = power / model.time.size`
element-wise. -/
def perSampleNorm (power time : List ℚ) : List ℚ :=
  power.map fun p => p / (time.length : ℚ)

/-- Claim C1: in plot_psd, for any component list whose power curves
all have the length n of the shared frequency grid, a successful
aggregation yields full_power equal to the element-wise sum of all
component curves accumulated from an all-zero curve of length n, and
full_power has length n. -/
theorem full_power_is_elementwise_sum (n : ℕ) (comps : List (String × List ℚ)) (s : PsdState)
    (hrun : plot_psd_aggregate n comps = some s)
    (hlen : ∀ c ∈ comps, c.2.length = n) :
    s.full_power = sumPowers n comps ∧ s.full_power.length = n := by
  obtain ⟨hfull, -, -, -, -⟩ := runAggregate_spec comps (initState n) s hrun
  have h1 : s.full_power = sumPowers n comps := by
    simpa [initState, sumPowers] using hfull
  refine ⟨h1, ?_⟩
  rw [h1, sumPowers]
  exact foldl_addVec_length n comps _ (by simp) hlen

/-- Witness for C1 at a concrete input. -/
theorem full_power_is_elementwise_sum_witness :
    (⟨[1, 2], [1, 2], ["Granulation"], [("Granulation", [1, 2], true)]⟩
        : PsdState).full_power = sumPowers 2 [("Granulation", [1, 2])] ∧
      (⟨[1, 2], [1, 2], ["Granulation"], [("Granulation", [1, 2], true)]⟩
        : PsdState).full_power.length = 2 :=
  full_power_is_elementwise_sum 2 [("Granulation", [1, 2])] _
    (by norm_num +decide [plot_psd_aggregate, runAggregate, plot_psd_step, whiteNoiseAdjust,
      addVec, initState, label_dict, ls_dict, alpha_dict, List.replicate_succ, List.replicate_zero,
      List.zipWith_cons_cons, List.zipWith_nil_right, List.zipWith_nil_left])
    (by norm_num)

/-- Claim C2: in plot_psd (all curves of grid length n, successful
aggregation), nobump_power equals full_power minus the curve of the
"OscillationBump" component when exactly one component bears that name,
and equals full_power when no component bears that name. -/
theorem nobump_power_vs_full_power (n : ℕ) (comps : List (String × List ℚ)) (s : PsdState)
    (hrun : plot_psd_aggregate n comps = some s)
    (hlen : ∀ c ∈ comps, c.2.length = n) :
    (∀ b, comps.filter (fun c => decide (c.1 = "OscillationBump")) = [b] →
        s.nobump_power = subVec s.full_power b.2) ∧
    (comps.filter (fun c => decide (c.1 = "OscillationBump")) = [] →
        s.nobump_power = s.full_power) := by
  obtain ⟨hfull, hnob, -, -, -⟩ := runAggregate_spec comps (initState n) s hrun
  simp only [initState] at hfull hnob
  have hfl : s.full_power.length = n := by
    rw [hfull]; exact foldl_addVec_length n comps _ (by simp) hlen
  constructor
  · intro b hb
    have hbmem : b ∈ comps := by
      refine List.mem_of_mem_filter (p := fun c => decide (c.1 = "OscillationBump")) ?_
      rw [hb]; exact List.mem_singleton_self b
    have hbl : b.2.length = n := hlen b hbmem
    have hnl : s.nobump_power.length = n := by
      rw [hnob]
      exact foldl_addVec_length n _ _ (by simp)
        fun c hc => hlen c (List.mem_of_mem_filter hc)
    refine List.ext_getElem (by rw [hnl, subVec_length, hfl, hbl, min_self]) ?_
    intro i h₁ h₂
    rw [← List.getD_eq_getElem s.nobump_power (d := 0) h₁,
      ← List.getD_eq_getElem (subVec s.full_power b.2) (d := 0) h₂,
      getD_subVec s.full_power b.2 (by rw [hfl, hbl]) i, hnob, hfull,
      getD_foldl_addVec n _ _ (by simp) hlen i,
      getD_foldl_addVec n _ _ (by simp) (fun c hc => hlen c (List.mem_of_mem_filter hc)) i,
      getD_replicate_zero]
    have hsplit := sum_map_filter_split (fun c => decide (c.1 = "OscillationBump"))
      (fun c => c.2.getD i 0) comps
    have hfilt : (comps.filter fun c => decide (c.1 ≠ "OscillationBump")) =
        comps.filter fun c => !(decide (c.1 = "OscillationBump")) := by
      simp only [ne_eq, decide_not]
    have hbsum : ((comps.filter fun c => decide (c.1 = "OscillationBump")).map
        fun c => c.2.getD i 0).sum = b.2.getD i 0 := by
      rw [hb]; simp
    rw [hfilt]
    rw [hbsum] at hsplit
    linarith
  · intro hempty
    have hall : ∀ c ∈ comps, decide (c.1 ≠ "OscillationBump") = true := by
      intro c hc
      have := List.filter_eq_nil_iff.mp hempty c hc
      simpa using this
    have hfilt : (comps.filter fun c => decide (c.1 ≠ "OscillationBump")) = comps :=
      List.filter_eq_self.mpr hall
    rw [hnob, hfilt, hfull]

/-- Witness for C2 at a concrete input with one bump component. -/
theorem nobump_power_vs_full_power_witness :
    (⟨[1], [0], ["Gaussian envelope"], [("OscillationBump", [1], true)]⟩
        : PsdState).nobump_power =
      subVec (⟨[1], [0], ["Gaussian envelope"], [("OscillationBump", [1], true)]⟩
        : PsdState).full_power [1] :=
  (nobump_power_vs_full_power 1 [("OscillationBump", [1])] _
    (by norm_num +decide [plot_psd_aggregate, runAggregate, plot_psd_step, whiteNoiseAdjust,
      addVec, initState, label_dict, ls_dict, alpha_dict, List.replicate_succ, List.replicate_zero,
      List.zipWith_cons_cons, List.zipWith_nil_right, List.zipWith_nil_left])
    (by norm_num)).1 ("OscillationBump", [1]) (by norm_num +decide)

/-- Claim C6: the white-noise adjustment (`power += 0.0`) is
functionally inert: the aggregation of plot_psd computes exactly the
same result as the same procedure with the adjustment removed, on every
input. -/
theorem whitenoise_adjustment_inert (n : ℕ) (comps : List (String × List ℚ)) :
    plot_psd_aggregate n comps = plot_psd_aggregate_noadj n comps := by
  suffices h : ∀ (l : List (String × List ℚ)) (s₀ : PsdState),
      runAggregate s₀ l = runAggregateNoadj s₀ l from h comps (initState n)
  intro l
  induction l with
  | nil => intro s₀; rfl
  | cons c rest ih =>
    intro s₀
    simp only [runAggregate, runAggregateNoadj, ← plot_psd_step_eq_noadj]
    cases plot_psd_step s₀ c with
    | none => rfl
    | some s₁ => exact ih s₁

/-- Claim C8: on the concrete components
[("Granulation",[4,2,1]), ("OscillationBump",[0,3,0]), ("WhiteNoise",[1,1,1])]
the aggregation of plot_psd yields full_power = [5,6,2],
nobump_power = [5,3,2], and records exactly the labels
"Granulation", "Gaussian envelope", "White noise". -/
theorem psd_concrete_scenario :
    (plot_psd_aggregate 3 [("Granulation", [4, 2, 1]), ("OscillationBump", [0, 3, 0]),
      ("WhiteNoise", [1, 1, 1])]).map
      (fun s => (s.full_power, s.nobump_power, s.unique_labels)) =
    some ([5, 6, 2], [5, 3, 2], ["Granulation", "Gaussian envelope", "White noise"]) := by
  norm_num +decide [plot_psd_aggregate, runAggregate, plot_psd_step, whiteNoiseAdjust,
    addVec, initState, label_dict, ls_dict, alpha_dict, List.replicate_succ, List.replicate_zero,
    List.zipWith_cons_cons, List.zipWith_nil_right, List.zipWith_nil_left]

/-- A component whose name has no label entry makes the whole loop
raise, from any start state. -/
theorem runAggregate_none_of_bad (nm : String) (p : List ℚ) (hdict : label_dict nm = none) :
    ∀ (comps : List (String × List ℚ)) (s₀ : PsdState), (nm, p) ∈ comps →
      runAggregate s₀ comps = none := by
  intro comps
  induction comps with
  | nil => intro s₀ h; simp at h
  | cons c rest ih =>
    intro s₀ hmem
    rcases List.mem_cons.mp hmem with rfl | hmem
    · simp [runAggregate, plot_psd_step_none s₀ (nm, p) hdict]
    · cases hstep : plot_psd_step s₀ c with
      | none => simp [runAggregate, hstep]
      | some s₁ =>
        simp only [runAggregate, hstep]
        exact ih s₁ hmem

/-- Claim C9: a component list containing a name outside
{"Granulation", "OscillationBump", "WhiteNoise"} makes plot_psd fail
with a missing-key lookup (none), and the failing iteration is exactly
the one processing that component, whose label/style lookup misses. -/
theorem unknown_component_name_fails (n : ℕ) (comps : List (String × List ℚ))
    (nm : String) (p : List ℚ) (hmem : (nm, p) ∈ comps)
    (hnm : nm ∉ (["Granulation", "OscillationBump", "WhiteNoise"] : List String)) :
    plot_psd_aggregate n comps = none ∧ ∀ s : PsdState, plot_psd_step s (nm, p) = none := by
  have h1 : nm ≠ "Granulation" := fun h => hnm (by simp [h])
  have h2 : nm ≠ "OscillationBump" := fun h => hnm (by simp [h])
  have h3 : nm ≠ "WhiteNoise" := fun h => hnm (by simp [h])
  have hdict : label_dict nm = none := by simp [label_dict, h1, h2, h3]
  exact ⟨runAggregate_none_of_bad nm p hdict comps _ hmem,
    fun s => plot_psd_step_none s _ hdict⟩

/-- Witness for C9 at a concrete input. -/
theorem unknown_component_name_fails_witness :
    plot_psd_aggregate 1 [("Transit", [1])] = none :=
  (unknown_component_name_fails 1 [("Transit", [1])] "Transit" [1]
    (List.mem_singleton_self _) (by decide)).1

/-- Claim C4: after a successful aggregation, each processed name
contributes exactly one entry to the legend-label list, however many
curves share it, and a curve is drawn labeled exactly when its name
occurs for the first time. -/
theorem legend_label_first_occurrence (n : ℕ) (comps : List (String × List ℚ)) (s : PsdState)
    (hrun : plot_psd_aggregate n comps = some s) :
    (∀ c ∈ comps, s.unique_labels.count (labelOf c.1) = 1) ∧
    s.draws.map (fun d => d.2.2) = firstOccFlags [] (comps.map fun c => c.1) := by
  obtain ⟨-, -, hlabels, hdraws, hdom⟩ := runAggregate_spec comps (initState n) s hrun
  simp only [initState] at hlabels hdraws
  have hdom' : ∀ a, (a ∈ comps.map (fun c => c.1) ∨ a ∈ ([] : List String)) →
      (label_dict a).isSome := by
    rintro a (ha | ha)
    · obtain ⟨c, hc, rfl⟩ := List.mem_map.mp ha
      exact hdom c hc
    · simp at ha
  constructor
  · intro c hc
    have hnd : s.unique_labels.Nodup := by
      rw [hlabels]; exact nodup_foldl_insertNew _ [] List.nodup_nil
    have hmem : labelOf c.1 ∈ s.unique_labels := by
      rw [hlabels, mem_foldl_insertNew]
      exact Or.inr (List.mem_map.mpr ⟨c, hc, rfl⟩)
    exact List.count_eq_one_of_mem hnd hmem
  · rw [hdraws, List.nil_append]
    exact drawsSpec_flags comps [] hdom'

/-- Witness for C4 at a concrete input with a repeated name. -/
theorem legend_label_first_occurrence_witness :
    (⟨[3], [3], ["Granulation"], [("Granulation", [1], true), ("Granulation", [2], false)]⟩
        : PsdState).unique_labels.count (labelOf "Granulation") = 1 ∧
    (⟨[3], [3], ["Granulation"], [("Granulation", [1], true), ("Granulation", [2], false)]⟩
        : PsdState).draws.map (fun d => d.2.2) =
      firstOccFlags [] ([("Granulation", [1]), ("Granulation", [2])].map
        fun c : String × List ℚ => c.1) :=
  ⟨(legend_label_first_occurrence 1 [("Granulation", [1]), ("Granulation", [2])] _
      (by norm_num +decide [plot_psd_aggregate, runAggregate, plot_psd_step, whiteNoiseAdjust,
        addVec, initState, label_dict, ls_dict, alpha_dict, List.replicate_succ,
        List.replicate_zero, List.zipWith_cons_cons, List.zipWith_nil_right,
        List.zipWith_nil_left])).1 ("Granulation", [1]) (by norm_num),
    (legend_label_first_occurrence 1 [("Granulation", [1]), ("Granulation", [2])] _
      (by norm_num +decide [plot_psd_aggregate, runAggregate, plot_psd_step, whiteNoiseAdjust,
        addVec, initState, label_dict, ls_dict, alpha_dict, List.replicate_succ,
        List.replicate_zero, List.zipWith_cons_cons, List.zipWith_nil_right,
        List.zipWith_nil_left])).2⟩

/-- Claim C10: after a successful aggregation the legend-label list is
the ordered list of display labels of the distinct names, in order of
first occurrence in the input. -/
theorem unique_labels_first_occurrence_order (n : ℕ) (comps : List (String × List ℚ))
    (s : PsdState) (hrun : plot_psd_aggregate n comps = some s) :
    s.unique_labels = (dedupFirst (comps.map fun c => c.1)).map labelOf := by
  obtain ⟨-, -, hlabels, -, hdom⟩ := runAggregate_spec comps (initState n) s hrun
  simp only [initState] at hlabels
  have hdom' : ∀ a, (a ∈ comps.map (fun c => c.1) ∨ a ∈ ([] : List String)) →
      (label_dict a).isSome := by
    rintro a (ha | ha)
    · obtain ⟨c, hc, rfl⟩ := List.mem_map.mp ha
      exact hdom c hc
    · simp at ha
  have h := foldl_insertNew_map (comps.map fun c => c.1) [] hdom'
  rw [dedupFirst, ← h, hlabels, List.map_map]
  rfl

/-- Witness for C10 at a concrete input with a repeated name. -/
theorem unique_labels_first_occurrence_order_witness :
    (⟨[5], [5], ["White noise"], [("WhiteNoise", [2], true), ("WhiteNoise", [3], false)]⟩
        : PsdState).unique_labels =
      (dedupFirst ([("WhiteNoise", [2]), ("WhiteNoise", [3])].map
        fun c : String × List ℚ => c.1)).map labelOf :=
  unique_labels_first_occurrence_order 1 [("WhiteNoise", [2]), ("WhiteNoise", [3])] _
    (by norm_num +decide [plot_psd_aggregate, runAggregate, plot_psd_step, whiteNoiseAdjust,
      addVec, initState, label_dict, ls_dict, alpha_dict, List.replicate_succ,
      List.replicate_zero, List.zipWith_cons_cons, List.zipWith_nil_right,
      List.zipWith_nil_left])

/-- Claim C3: with Parseval normalization, for a strictly increasing
frequency grid of at least 2 points and an empirical power curve of
positive sum, the rescaled curve satisfies
sum(scaled) * resolution = variance of the flux. -/
theorem parseval_norm_preserves_variance (power flux freq : List ℚ)
    (hsum : 0 < power.sum) (hlen : 2 ≤ freq.length)
    (hmono : List.Chain' (· < ·) freq) :
    (parsevalNorm power flux freq).sum * resolutionOf freq = npVar flux := by
  have hres : 0 < resolutionOf freq := by
    cases freq with
    | nil => simp at hlen
    | cons f0 t =>
      cases t with
      | nil => simp at hlen
      | cons f1 rest =>
        have h01 : f0 < f1 := (List.chain'_cons.mp hmono).1
        simp only [resolutionOf, List.getD_cons_succ, List.getD_cons_zero]
        linarith
  have hS : power.sum ≠ 0 := ne_of_gt hsum
  have hr : resolutionOf freq ≠ 0 := ne_of_gt hres
  simp only [parsevalNorm]
  have hfun : (fun p : ℚ => p * npVar flux / power.sum / resolutionOf freq) =
      fun p : ℚ => p * (npVar flux / power.sum / resolutionOf freq) :=
    funext fun p => by ring
  rw [hfun, List.sum_map_mul_right, List.map_id']
  field_simp
  ring

/-- Witness for C3 at a concrete input. -/
theorem parseval_norm_preserves_variance_witness :
    (parsevalNorm [1, 1] [0, 2] [1, 2]).sum * resolutionOf [1, 2] = npVar [0, 2] :=
  parseval_norm_preserves_variance [1, 1] [0, 2] [1, 2]
    (by norm_num [List.sum_cons, List.sum_nil]) (by norm_num)
    (by norm_num [List.chain'_cons, List.chain'_singleton])

/-- Claim C5: the celerite branch of plot_psd divides every empirical
power value by the number of time samples and changes nothing else:
the curve keeps its length and reads pointwise as power / n_samples. -/
theorem per_sample_norm_pointwise (power time : List ℚ) :
    (perSampleNorm power time).length = power.length ∧
    ∀ i : ℕ, i < power.length →
      (perSampleNorm power time).getD i 0 = power.getD i 0 / (time.length : ℚ) := by
  constructor
  · simp [perSampleNorm]
  · intro i hi
    have h2 : i < (perSampleNorm power time).length := by simpa [perSampleNorm] using hi
    rw [List.getD_eq_getElem _ (d := 0) h2, List.getD_eq_getElem _ (d := 0) hi]
    simp [perSampleNorm]

/-- Witness for C5 at the concrete scenario of the spec. -/
theorem per_sample_norm_pointwise_witness :
    (0 : ℕ) < ([2, 2, 2, 2] : List ℚ).length ∧
    (perSampleNorm [2, 2, 2, 2] [0, 1, 2, 3]).getD 0 0 =
      ([2, 2, 2, 2] : List ℚ).getD 0 0 / ((([0, 1, 2, 3] : List ℚ).length : ℚ)) :=
  ⟨by norm_num,
    (per_sample_norm_pointwise [2, 2, 2, 2] [0, 1, 2, 3]).2 0 (by norm_num)⟩

/-- Claim C7: plot_gp treats an absent per-sample error attribute as
"no error bars": err is none (also for the zoomed plot) instead of a
failure, and a present attribute is passed through as the error-bar
input. -/
theorem plot_gp_error_fallback (m : GPModel) :
    (m.error = none → plot_gp_err m = none ∧ plot_gp_zoom_err m = none) ∧
    (∀ e, m.error = some e → plot_gp_err m = some e) := by
  cases he : m.error <;> simp [plot_gp_err, plot_gp_zoom_err, he]

/-- Witness for C7 at concrete models with and without the attribute. -/
theorem plot_gp_error_fallback_witness :
    plot_gp_err ⟨[], [], none⟩ = none ∧ plot_gp_err ⟨[], [], some [1]⟩ = some [1] :=
  ⟨((plot_gp_error_fallback ⟨[], [], none⟩).1 rfl).1,
    (plot_gp_error_fallback ⟨[], [], some [1]⟩).2 [1] rfl⟩
